import Mathlib

/-
Verification of the core logic of dice-todo (App.js): the task store
(addTask, toggleDone, deleteTask), the priority-weighted selector
(pickWeightedTask, rollDice), the AsyncStorage persistence layer
(saveTasks / loadTasks over safeGetItem / safeSetItem), and the timer-driven
roll sequencing of rollDice.  All definitions are shallow embeddings of the
corresponding JavaScript functions in src/App.js.
-/

namespace DiceTodo

/-- A task record as constructed by addTask (App.js lines 136-142).
In the source, id is the string Date.now().toString(), priority is one of the
strings High / Medium / Low chosen in the UI, done defaults to false and
createdAt is Date.now(). -/
structure Task where
  id : String
  name : String
  priority : String
  done : Bool
  createdAt : Nat
deriving DecidableEq

/-- Embedding of JavaScript String.prototype.trim as used by addTask:
drop leading and trailing whitespace characters of the string. -/
def jsTrim (s : String) : String :=
  ⟨((s.data.dropWhile Char.isWhitespace).reverse.dropWhile Char.isWhitespace).reverse⟩

/-- Embedding of addTask (App.js lines 131-148).  The guard
(!name || !name.trim()) holds exactly when the trimmed name is empty, since
the empty string is falsy; in that case setError fires and the function
returns without touching the list.  Otherwise a new task with
id = Date.now().toString(), trimmed name, the given priority, done = false
and createdAt = Date.now() is prepended to the list.  The result is the task
list after the call together with the error message, if any. -/
def addTask (now : Nat) (nm : String) (priority : String) (tasks : List Task) :
    List Task × Option String :=
  if jsTrim nm = "" then
    (tasks, some "Please enter a task name")
  else
    ({ id := Nat.repr now, name := jsTrim nm, priority := priority,
       done := false, createdAt := now } :: tasks, none)

/-- Embedding of toggleDone (App.js lines 150-155): map over the list,
flipping done on the task whose id matches. -/
def toggleDone (i : String) (tasks : List Task) : List Task :=
  tasks.map (fun t => if t.id == i then { t with done := !t.done } else t)

/-- Embedding of deleteTask (App.js lines 157-166), after the confirmation
dialog: keep exactly the tasks whose id differs from the given one. -/
def deleteTask (i : String) (tasks : List Task) : List Task :=
  tasks.filter (fun t => t.id != i)

/-- Priority weight used by pickWeightedTask (App.js line 173):
High maps to 3, Medium to 2, and every other priority string to 1. -/
def weight (t : Task) : Nat :=
  if t.priority = "High" then 3 else if t.priority = "Medium" then 2 else 1

/-- The expanded array built by pickWeightedTask (App.js lines 171-175):
each task's id is pushed w times, where w is its priority weight. -/
def expandedIds (pool : List Task) : List String :=
  pool.flatMap (fun t => List.replicate (weight t) t.id)

/-- Embedding of pickWeightedTask (App.js lines 169-178).  The random draw
Math.floor(Math.random() * expanded.length) is made explicit as the index r;
in the source it is always a natural number below expanded.length.  The
element at r names the chosen id, and the chosen task is the first one in
the pool with that id (pool.find, with null when nothing matches). -/
def pickWeightedTask (pool : List Task) (r : Nat) : Option Task :=
  if pool.isEmpty then none
  else
    match (expandedIds pool)[r]? with
    | none => none
    | some i => pool.find? (fun p => p.id == i)

/-- The selection outcome of rollDice (App.js lines 180-208): the pool is the
list filtered to tasks with done = false; an empty pool returns early with no
selection (setSelectedTask(null) plus an error banner), otherwise the settle
step computes pickWeightedTask on the pool with random index r. -/
def rollDice (tasks : List Task) (r : Nat) : Option Task :=
  let available := tasks.filter (fun t => !t.done)
  if available.isEmpty then none
  else pickWeightedTask available r

/-- JSON values, the codomain of JSON.stringify / JSON.parse as used by
saveTasks and loadTasks for the single storage key. -/
inductive Json where
  | null
  | bool (b : Bool)
  | num (n : Nat)
  | str (s : String)
  | arr (elems : List Json)
  | obj (fields : List (String × Json))

/-- The JSON object a task serializes to under JSON.stringify: its five
fields with their runtime values. -/
def taskToJson (t : Task) : Json :=
  Json.obj [("id", Json.str t.id), ("name", Json.str t.name),
            ("priority", Json.str t.priority), ("done", Json.bool t.done),
            ("createdAt", Json.num t.createdAt)]

/-- Embedding of saveTasks (App.js lines 118-124): the value written to the
storage key is JSON.stringify(tasks), i.e. the JSON array of the serialized
tasks. -/
def savePayload (tasks : List Task) : Json :=
  Json.arr (tasks.map taskToJson)

/-- First-match field lookup in a JSON object, the semantics of JavaScript
property access on a parsed object. -/
def lookupField (fields : List (String × Json)) (k : String) : Option Json :=
  match fields with
  | [] => none
  | (k0, v) :: rest => if k0 == k then some v else lookupField rest k

/-- Interpretation of a parsed JSON value as a Task record: defined exactly
when the value is an object whose id, name and priority fields are strings,
done is a boolean and createdAt is a number.  JSON.parse applied to
JSON.stringify of a task yields exactly such an object. -/
def taskOfJson (j : Json) : Option Task :=
  match j with
  | Json.obj fields =>
    match lookupField fields "id", lookupField fields "name",
          lookupField fields "priority", lookupField fields "done",
          lookupField fields "createdAt" with
    | some (Json.str i), some (Json.str nm), some (Json.str p),
      some (Json.bool d), some (Json.num c) =>
        some { id := i, name := nm, priority := p, done := d, createdAt := c }
    | _, _, _, _, _ => none
  | _ => none

/-- The state of the storage backend as seen by loadTasks: absent covers a
null result from safeGetItem (no stored value, or a getItem failure caught
by the wrapper, App.js lines 85-94) and the falsy empty string; malformed
covers a string on which JSON.parse throws (caught at lines 113-115); value
covers a string that parses to the given JSON value. -/
inductive Payload where
  | absent
  | malformed
  | value (j : Json)

/-- Embedding of loadTasks (App.js lines 106-116) at startup, when the task
list is empty: the parsed value replaces the list only when Array.isArray
holds, so only an array payload yields tasks, and every other backend state
leaves the empty list.  The returned elements are the raw parsed JSON
values, exactly as the source stores the parsed array unvalidated. -/
def loadTasks (p : Payload) : List Json :=
  match p with
  | Payload.value (Json.arr xs) => xs
  | _ => []

/-- Whether the backend state holds a payload that parses to an array, the
Array.isArray test of loadTasks. -/
def isArrayValue : Payload → Bool
  | Payload.value (Json.arr _) => true
  | _ => false

/-- The mutation commands the presentation layer issues to the store. -/
inductive StoreOp where
  | add (now : Nat) (nm : String) (priority : String)
  | toggle (i : String)
  | del (i : String)

/-- Effect of one store command on the task list. -/
def applyOp (tasks : List Task) : StoreOp → List Task
  | StoreOp.add now nm priority => (addTask now nm priority tasks).1
  | StoreOp.toggle i => toggleDone i tasks
  | StoreOp.del i => deleteTask i tasks

/-- Effect of a sequence of store commands, applied in order. -/
def runOps (tasks : List Task) (ops : List StoreOp) : List Task :=
  ops.foldl applyOp tasks

/-- A sequence of addTask calls, each given by its Date.now() value, raw
name and priority; failed adds leave the list unchanged. -/
def addSeq (ops : List (Nat × String × String)) (tasks : List Task) : List Task :=
  ops.foldl (fun ts o => (addTask o.1 o.2.1 o.2.2 ts).1) tasks

/-- The closed list of priority strings the UI can select (App.js line 362);
the priority state also starts at Medium (line 60), so addTask is only ever
called with one of these values. -/
def uiPriorities : List String := ["High", "Medium", "Low"]

/-- Fields of a JSON object (empty for a non-object). -/
def jsonFields : Json → List (String × Json)
  | Json.obj fields => fields
  | _ => []

/-- Elements of a JSON array (empty for a non-array). -/
def jsonElems : Json → List Json
  | Json.arr xs => xs
  | _ => []

/-- Whether an add command carries one of the three UI priorities; toggle
and delete commands carry none. -/
def opPriorityOk : StoreOp → Prop
  | StoreOp.add _ _ priority => priority ∈ uiPriorities
  | _ => True

/-- State of the roll timer machinery of rollDice (App.js lines 67-68 and
180-208): the two refs intervalRef and timeoutRef, the sets of scheduled
timer ids not yet cleared or fired (pending), a fresh-id counter standing
for the runtime's timer ids, and counters of started rolls and of settle
callbacks that wrote a result. -/
structure RollState where
  intervalRef : Option Nat
  timeoutRef : Option Nat
  pendingIntervals : List Nat
  pendingTimeouts : List Nat
  nextTimer : Nat
  rolls : Nat
  settles : Nat
deriving DecidableEq

/-- The machine state at mount: no refs, no scheduled timers. -/
def initialRollState : RollState :=
  { intervalRef := none, timeoutRef := none, pendingIntervals := [],
    pendingTimeouts := [], nextTimer := 0, rolls := 0, settles := 0 }

/-- clearInterval / clearTimeout on a ref: deschedule the named timer. -/
def clearTimer (pending : List Nat) : Option Nat → List Nat
  | none => pending
  | some i => pending.filter (fun x => x != i)

/-- Starting a roll with a nonempty pool (App.js lines 193-207): first clear
the current interval and timeout refs, then schedule a fresh preview
interval and a fresh settle timeout and store them in the refs. -/
def startRoll (s : RollState) : RollState :=
  { intervalRef := some s.nextTimer,
    timeoutRef := some (s.nextTimer + 1),
    pendingIntervals := s.nextTimer :: clearTimer s.pendingIntervals s.intervalRef,
    pendingTimeouts := (s.nextTimer + 1) :: clearTimer s.pendingTimeouts s.timeoutRef,
    nextTimer := s.nextTimer + 2,
    rolls := s.rolls + 1,
    settles := s.settles }

/-- The settle callback of timer i firing (App.js lines 201-207): the
one-shot timeout leaves the schedule, the callback clears the preview
interval ref and writes the final pick. -/
def settleAt (s : RollState) (i : Nat) : RollState :=
  { s with
    pendingTimeouts := s.pendingTimeouts.filter (fun x => x != i),
    pendingIntervals := clearTimer s.pendingIntervals s.intervalRef,
    settles := s.settles + 1 }

/-- The unmount cleanup (App.js lines 73-76): clear both refs. -/
def cleanupTimers (s : RollState) : RollState :=
  { s with
    pendingIntervals := clearTimer s.pendingIntervals s.intervalRef,
    pendingTimeouts := clearTimer s.pendingTimeouts s.timeoutRef }

/-- One event of the roll machine: a roll starts, a still-scheduled settle
timeout fires, or the component unmounts. -/
inductive RollStep : RollState → RollState → Prop
  | roll (s : RollState) : RollStep s (startRoll s)
  | settle (s : RollState) (i : Nat) (h : i ∈ s.pendingTimeouts) :
      RollStep s (settleAt s i)
  | unmount (s : RollState) : RollStep s (cleanupTimers s)

/-- States reachable from the mount state by roll machine events. -/
inductive RollReachable : RollState → Prop
  | init : RollReachable initialRollState
  | step {s t : RollState} : RollReachable s → RollStep s t → RollReachable t

/-- The invariant of the roll machine: every scheduled timer is the one the
corresponding ref currently names (so at most one of each kind is pending),
and every settle write is accounted to a distinct started roll. -/
def RollInv (s : RollState) : Prop :=
  s.pendingIntervals.length ≤ 1 ∧
  (∀ i ∈ s.pendingIntervals, s.intervalRef = some i) ∧
  s.pendingTimeouts.length ≤ 1 ∧
  (∀ i ∈ s.pendingTimeouts, s.timeoutRef = some i) ∧
  s.settles + s.pendingTimeouts.length ≤ s.rolls

/-- Decimal digit characters of n, most significant first: the list that
Nat.toDigitsCore computes with sufficient fuel. -/
def digitsRec (n : Nat) : List Char :=
  if h : n < 10 then [Nat.digitChar n]
  else digitsRec (n / 10) ++ [Nat.digitChar (n % 10)]
decreasing_by
  omega

/-- Numeric value of a decimal digit character. -/
def digitVal (c : Char) : Nat := c.toNat - 48

/-- Horner evaluation of a decimal digit string on top of an accumulator. -/
def evalDigitsAux (a : Nat) (l : List Char) : Nat :=
  l.foldl (fun x c => x * 10 + digitVal c) a

/-- Sample high-priority task for concrete evaluations. -/
def tHigh : Task :=
  { id := "1", name := "a", priority := "High", done := false, createdAt := 1 }

/-- Sample low-priority task for concrete evaluations. -/
def tLow : Task :=
  { id := "2", name := "b", priority := "Low", done := false, createdAt := 2 }

/-- Sample completed task for concrete evaluations. -/
def tDone : Task :=
  { id := "4", name := "d", priority := "High", done := true, createdAt := 4 }

/-- Sample task with a priority outside the UI enumeration. -/
def tOdd : Task :=
  { id := "3", name := "c", priority := "Urgent", done := false, createdAt := 3 }

/-- Digit characters below 10 evaluate back to their value. -/
lemma digitVal_digitChar {d : Nat} (h : d < 10) :
    digitVal (Nat.digitChar d) = d := by
  have hall : ∀ e, e < 10 → digitVal (Nat.digitChar e) = e := by decide
  exact hall d h

/-- Horner evaluation of the digit string of n recovers n on top of any
accumulator. -/
lemma evalDigitsAux_digitsRec (n : Nat) :
    ∀ a, evalDigitsAux a (digitsRec n) = a * 10 ^ (digitsRec n).length + n := by
  induction n using Nat.strong_induction_on with
  | _ n ih =>
    intro a
    by_cases h : n < 10
    · rw [digitsRec, dif_pos h]
      simp [evalDigitsAux, digitVal_digitChar h]
    · rw [digitsRec, dif_neg h]
      have hlt : n / 10 < n := Nat.div_lt_self (by omega) (by omega)
      have hmod : n % 10 < 10 := Nat.mod_lt n (by omega)
      rw [evalDigitsAux, List.foldl_append]
      have h1 := ih (n / 10) hlt a
      rw [evalDigitsAux] at h1
      rw [h1]
      simp only [List.foldl_cons, List.foldl_nil, List.length_append,
        List.length_singleton, digitVal_digitChar hmod]
      rw [pow_succ]
      have hdm : 10 * (n / 10) + n % 10 = n := Nat.div_add_mod n 10
      ring_nf
      omega

/-- The decimal digit string determines the number. -/
lemma digitsRec_injective : Function.Injective digitsRec := by
  intro m n h
  have hm := evalDigitsAux_digitsRec m 0
  have hn := evalDigitsAux_digitsRec n 0
  rw [h] at hm
  omega

/-- With enough fuel, Nat.toDigitsCore in base 10 computes the digit string
of n in front of the accumulator. -/
lemma toDigitsCore_eq_digitsRec :
    ∀ (f n : Nat) (acc : List Char), n < f →
      Nat.toDigitsCore 10 f n acc = digitsRec n ++ acc := by
  intro f
  induction f with
  | zero => intro n acc h; omega
  | succ f ih =>
    intro n acc h
    by_cases h10 : n / 10 = 0
    · have hn : n < 10 := by omega
      rw [Nat.toDigitsCore]
      simp only [h10, if_pos]
      rw [digitsRec, dif_pos hn, Nat.mod_eq_of_lt hn]
      rfl
    · have hn : ¬ n < 10 := by omega
      rw [Nat.toDigitsCore, if_neg h10,
        ih (n / 10) (Nat.digitChar (n % 10) :: acc) (by omega)]
      conv_rhs => rw [digitsRec]
      rw [dif_neg hn, List.append_assoc]
      rfl

/-- Distinct naturals print to distinct decimal strings: Date.now().toString()
is injective in the timestamp. -/
lemma repr_injective : Function.Injective Nat.repr := by
  intro m n h
  rw [Nat.repr, Nat.repr, Nat.toDigits, Nat.toDigits,
    toDigitsCore_eq_digitsRec (m + 1) m [] (by omega),
    toDigitsCore_eq_digitsRec (n + 1) n [] (by omega),
    List.append_nil, List.append_nil, List.asString_inj] at h
  exact digitsRec_injective h

/-- The expanded array has one entry per unit of weight. -/
lemma expandedIds_length (pool : List Task) :
    (expandedIds pool).length = (pool.map weight).sum := by
  induction pool with
  | nil => rfl
  | cons x xs ih =>
    simp only [expandedIds, List.flatMap_cons, List.length_append,
      List.length_replicate, List.map_cons, List.sum_cons] at *
    omega

/-- Every entry of the expanded array is the id of some pool task. -/
lemma mem_expandedIds {a : String} {pool : List Task}
    (h : a ∈ expandedIds pool) : a ∈ pool.map Task.id := by
  rw [expandedIds, List.mem_flatMap] at h
  obtain ⟨t, ht, ha⟩ := h
  rw [List.eq_of_mem_replicate ha]
  exact List.mem_map_of_mem Task.id ht

/-- With pairwise-distinct ids, searching the pool for the id of a member
returns that member. -/
lemma findId_of_nodup {pool : List Task} {t : Task} (hmem : t ∈ pool)
    (hids : (pool.map Task.id).Nodup) :
    pool.find? (fun p => p.id == t.id) = some t := by
  induction pool with
  | nil => cases hmem
  | cons x xs ih =>
    rw [List.map_cons, List.nodup_cons] at hids
    rcases List.mem_cons.mp hmem with rfl | hmem2
    · rw [List.find?_cons]
      simp
    · have hx : (x.id == t.id) = false := by
        rw [beq_eq_false_iff_ne]
        intro he
        exact hids.1 (he ▸ List.mem_map_of_mem Task.id hmem2)
      rw [List.find?_cons, hx]
      exact ih hmem2 hids.2

/-- With pairwise-distinct ids, a member's id occurs in the expanded array
exactly its weight many times. -/
lemma count_expandedIds {pool : List Task} {t : Task} (hmem : t ∈ pool)
    (hids : (pool.map Task.id).Nodup) :
    (expandedIds pool).count t.id = weight t := by
  induction pool with
  | nil => cases hmem
  | cons x xs ih =>
    rw [List.map_cons, List.nodup_cons] at hids
    have hx : expandedIds (x :: xs) =
        List.replicate (weight x) x.id ++ expandedIds xs := rfl
    rw [hx, List.count_append, List.count_replicate]
    rcases List.mem_cons.mp hmem with rfl | hmem2
    · have h0 : (expandedIds xs).count t.id = 0 :=
        List.count_eq_zero.mpr (fun hc => hids.1 (mem_expandedIds hc))
      simp [h0]
    · have hx2 : (x.id == t.id) = false := by
        rw [beq_eq_false_iff_ne]
        intro he
        exact hids.1 (he ▸ List.mem_map_of_mem Task.id hmem2)
      rw [hx2]
      simp [ih hmem2 hids.2]

/-- The number of positions of a list holding a given value is the count of
that value. -/
lemma length_filter_range_getElem {α : Type} [DecidableEq α] (l : List α) (a : α) :
    ((List.range l.length).filter (fun r => decide (l[r]? = some a))).length =
      l.count a := by
  induction l with
  | nil => rfl
  | cons x xs ih =>
    rw [List.length_cons, List.range_succ_eq_map, List.filter_cons,
      List.filter_map]
    have hcomp : ((fun r => decide ((x :: xs)[r]? = some a)) ∘ Nat.succ) =
        (fun r => decide (xs[r]? = some a)) := by
      funext r
      simp [List.getElem?_cons_succ]
    rw [hcomp]
    by_cases hx : x = a
    · subst hx
      simp [ih, List.count_cons]
    · simp [hx, ih, List.count_cons]

/-- A weighted pick returns some task only from the pool. -/
lemma pickWeightedTask_mem {pool : List Task} {r : Nat} {t : Task}
    (h : pickWeightedTask pool r = some t) : t ∈ pool := by
  rw [pickWeightedTask] at h
  by_cases he : pool.isEmpty
  · rw [if_pos he] at h
    cases h
  · rw [if_neg he] at h
    cases hg : (expandedIds pool)[r]? with
    | none => rw [hg] at h; cases h
    | some i =>
      rw [hg] at h
      exact List.mem_of_find?_eq_some h

/-- With pairwise-distinct ids, the weighted pick lands on a member t exactly
when the expanded array holds t's id at the drawn index. -/
lemma pickWeightedTask_eq_iff {pool : List Task} {t : Task} (hmem : t ∈ pool)
    (hids : (pool.map Task.id).Nodup) (r : Nat) :
    pickWeightedTask pool r = some t ↔ (expandedIds pool)[r]? = some t.id := by
  have hne : pool.isEmpty = false := by
    cases pool
    · cases hmem
    · rfl
  rw [pickWeightedTask, hne]
  simp only [Bool.false_eq_true, if_false]
  cases hg : (expandedIds pool)[r]? with
  | none =>
    simp
  | some i =>
    simp only [Option.some.injEq]
    constructor
    · intro hf
      have hp := List.find?_some hf
      rw [beq_iff_eq] at hp
      exact hp.symm
    · intro hi
      subst hi
      exact findId_of_nodup hmem hids

/-- Claim C1: for a pool of incomplete tasks with pairwise-distinct ids, a
uniform draw over the expanded multiset selects a given member with
probability weight over total weight: the number of draw indices on which
pickWeightedTask returns that member equals the member's weight (High 3,
Medium 2, Low 1), and the number of possible draw indices is the sum of the
weights of the pool. -/
theorem pickWeightedTask_distribution (pool : List Task) (t : Task)
    (hmem : t ∈ pool) (hids : (pool.map Task.id).Nodup) :
    ((List.range (expandedIds pool).length).filter
        (fun r => decide (pickWeightedTask pool r = some t))).length = weight t ∧
    (expandedIds pool).length = (pool.map weight).sum := by
  constructor
  · have hcong : List.filter (fun r => decide (pickWeightedTask pool r = some t))
        (List.range (expandedIds pool).length) =
        List.filter (fun r => decide ((expandedIds pool)[r]? = some t.id))
        (List.range (expandedIds pool).length) := by
      apply List.filter_congr
      intro r _
      rw [decide_eq_decide]
      exact pickWeightedTask_eq_iff hmem hids r
    rw [hcong, length_filter_range_getElem]
    exact count_expandedIds hmem hids
  · exact expandedIds_length pool

/-- Witness for C1 on the concrete pool of one High and one Low task:
the High task is drawn on exactly 3 of the 4 equally likely indices. -/
theorem pickWeightedTask_distribution_witness :
    tHigh ∈ [tHigh, tLow] ∧
    ((List.range (expandedIds [tHigh, tLow]).length).filter
        (fun r => decide (pickWeightedTask [tHigh, tLow] r = some tHigh))).length =
      weight tHigh :=
  ⟨by decide,
   (pickWeightedTask_distribution [tHigh, tLow] tHigh (by decide) (by decide)).1⟩

/-- Claim C10: a pool task whose priority is neither the string High nor
Medium gets weight 1, the same as Low, and (with distinct ids) remains
selectable: some draw index returns it. -/
theorem pickWeightedTask_unknown_priority (pool : List Task) (t : Task)
    (h1 : t.priority ≠ "High") (h2 : t.priority ≠ "Medium")
    (hmem : t ∈ pool) (hids : (pool.map Task.id).Nodup) :
    weight t = 1 ∧
    ∃ r, r < (expandedIds pool).length ∧ pickWeightedTask pool r = some t := by
  have hw : weight t = 1 := by
    rw [weight, if_neg h1, if_neg h2]
  refine ⟨hw, ?_⟩
  have hc : (expandedIds pool).count t.id = 1 := by
    rw [count_expandedIds hmem hids, hw]
  have hmm : t.id ∈ expandedIds pool := by
    by_contra hno
    rw [List.count_eq_zero.mpr hno] at hc
    omega
  obtain ⟨r, hr⟩ := List.mem_iff_getElem?.mp hmm
  obtain ⟨hlt, _⟩ := List.getElem?_eq_some.mp hr
  exact ⟨r, hlt, (pickWeightedTask_eq_iff hmem hids r).mpr hr⟩

/-- Witness for C10 on a pool holding a task with the unrecognized priority
string Urgent. -/
theorem pickWeightedTask_unknown_priority_witness :
    weight tOdd = 1 ∧
    ∃ r, r < (expandedIds [tHigh, tOdd]).length ∧
      pickWeightedTask [tHigh, tOdd] r = some tOdd :=
  pickWeightedTask_unknown_priority [tHigh, tOdd] tOdd
    (by decide) (by decide) (by decide) (by decide)

/-- Claim C4: a roll only selects among tasks with done = false; when the
filtered pool is the single task x, every draw returns x; when every task is
done, the roll returns the no-selection outcome none rather than a pick or
an error. -/
theorem rollDice_excludes_done (tasks : List Task) :
    (∀ r t, rollDice tasks r = some t → t.done = false ∧ t ∈ tasks) ∧
    (∀ x, tasks.filter (fun t => !t.done) = [x] →
      ∀ r, r < (expandedIds (tasks.filter (fun t => !t.done))).length →
        rollDice tasks r = some x) ∧
    ((∀ t ∈ tasks, t.done = true) → ∀ r, rollDice tasks r = none) := by
  refine ⟨?_, ?_, ?_⟩
  · intro r t h
    rw [rollDice] at h
    by_cases he : (tasks.filter (fun t => !t.done)).isEmpty
    · rw [if_pos he] at h
      cases h
    · rw [if_neg he] at h
      have hmem := pickWeightedTask_mem h
      rw [List.mem_filter] at hmem
      exact ⟨by simpa using hmem.2, hmem.1⟩
  · intro x hx r hr
    rw [rollDice, hx]
    rw [hx] at hr
    simp only [List.isEmpty_cons, Bool.false_eq_true, if_false]
    rw [pickWeightedTask]
    simp only [List.isEmpty_cons, Bool.false_eq_true, if_false]
    have hrep : expandedIds [x] = List.replicate (weight x) x.id := by
      simp [expandedIds]
    rw [hrep] at hr ⊢
    rw [List.length_replicate] at hr
    rw [List.getElem?_eq_getElem (by simpa using hr)]
    simp [List.getElem_replicate]
  · intro hall r
    rw [rollDice]
    have he : tasks.filter (fun t => !t.done) = [] := by
      rw [List.filter_eq_nil_iff]
      intro t ht
      simp [hall t ht]
    rw [he]
    rfl

/-- Witness for C4: with one completed and one incomplete task the roll
returns the incomplete one; with only completed tasks it returns none. -/
theorem rollDice_excludes_done_witness :
    rollDice [tDone, tLow] 0 = some tLow ∧ rollDice [tDone] 0 = none :=
  ⟨(rollDice_excludes_done [tDone, tLow]).2.1 tLow (by decide) 0 (by decide),
   (rollDice_excludes_done [tDone]).2.2 (by decide) 0⟩

/-- Claim C3: when the name is empty or whitespace-only after trimming,
addTask fails with the validation error reported synchronously and returns
the task list unchanged, for every priority and every prior list. -/
theorem addTask_validation (now : Nat) (nm priority : String)
    (tasks : List Task) (h : jsTrim nm = "") :
    addTask now nm priority tasks = (tasks, some "Please enter a task name") := by
  rw [addTask, if_pos h]

/-- Witness for C3 on the whitespace-only name with priority Low and on the
empty name with priority High. -/
theorem addTask_validation_witness :
    jsTrim "   " = "" ∧
    addTask 1 "   " "Low" [tHigh] = ([tHigh], some "Please enter a task name") ∧
    addTask 1 "" "High" [] = ([], some "Please enter a task name") :=
  ⟨by decide, addTask_validation 1 "   " "Low" [tHigh] (by decide),
   addTask_validation 1 "" "High" [] (by decide)⟩

/-- Removing by id shortens a list holding the id exactly once by one. -/
lemma filter_ne_length {tasks : List Task} {x : String}
    (h1 : tasks.countP (fun t => t.id == x) = 1) :
    (tasks.filter (fun t => t.id != x)).length = tasks.length - 1 := by
  induction tasks with
  | nil => cases h1
  | cons t ts ih =>
    rw [List.countP_cons] at h1
    rw [List.filter_cons]
    by_cases ht : (t.id == x) = true
    · rw [if_pos ht] at h1
      have h0 : List.countP (fun t => t.id == x) ts = 0 := by omega
      have hkeep : List.filter (fun t => t.id != x) ts = ts := by
        rw [List.filter_eq_self]
        intro a ha
        have h2 := List.countP_eq_zero.mp h0 a ha
        simpa [bne] using h2
      have hbt : ¬((t.id != x) = true) := by simp [bne, ht]
      rw [if_neg hbt, hkeep]
      simp
    · rw [if_neg ht] at h1
      have hbt : (t.id != x) = true := by simp [bne, ht]
      rw [if_pos hbt]
      have h1b : List.countP (fun t => t.id == x) ts = 1 := by omega
      have hpos : 0 < ts.length := by
        rcases List.countP_pos_iff.mp
            (by omega : 0 < List.countP (fun t => t.id == x) ts) with ⟨a, ha, _⟩
        exact List.length_pos.mpr (List.ne_nil_of_mem ha)
      rw [List.length_cons, List.length_cons, ih h1b]
      omega

/-- Claim C7: deleting an id that occurs exactly once shortens the list by
one, leaves no task with that id, and keeps the remaining tasks unchanged in
order (the result is a sublist of the original); deleting an absent id is a
no-op returning the list unchanged. -/
theorem deleteTask_spec (tasks : List Task) (x : String) :
    ((tasks.countP (fun t => t.id == x)) = 1 →
      (deleteTask x tasks).length = tasks.length - 1) ∧
    (∀ t ∈ deleteTask x tasks, t.id ≠ x) ∧
    (deleteTask x tasks).Sublist tasks ∧
    ((∀ t ∈ tasks, t.id ≠ x) → deleteTask x tasks = tasks) := by
  refine ⟨?_, ?_, ?_, ?_⟩
  · intro h1
    exact filter_ne_length h1
  · intro t ht
    rw [deleteTask, List.mem_filter] at ht
    simpa using ht.2
  · exact List.filter_sublist tasks
  · intro h
    rw [deleteTask, List.filter_eq_self]
    intro t ht
    simpa using h t ht

/-- Witness for C7: deleting the present id shrinks the two-task list to one
element, deleting an absent id leaves it unchanged. -/
theorem deleteTask_spec_witness :
    (deleteTask "1" [tHigh, tLow]).length = [tHigh, tLow].length - 1 ∧
    deleteTask "9" [tHigh, tLow] = [tHigh, tLow] :=
  ⟨(deleteTask_spec [tHigh, tLow] "1").1 (by decide),
   (deleteTask_spec [tHigh, tLow] "9").2.2.2 (by decide)⟩

/-- Serialization of a task parses back to exactly that task. -/
lemma taskOfJson_taskToJson (t : Task) : taskOfJson (taskToJson t) = some t := rfl

/-- Claim C5: saving any well-formed task list (including the empty list) and
loading it back yields a list whose elements each decode to exactly the
original task, so every loaded task agrees with the original on id, name,
priority and done (and createdAt). -/
theorem save_load_roundtrip (tasks : List Task) :
    (loadTasks (Payload.value (savePayload tasks))).map taskOfJson =
      tasks.map (fun t => some t) := by
  have hload : loadTasks (Payload.value (savePayload tasks)) =
      tasks.map taskToJson := rfl
  rw [hload, List.map_map]
  apply List.map_congr_left
  intro t _
  exact taskOfJson_taskToJson t

/-- Claim C6: whenever the stored payload is absent, unreadable, malformed,
or parses to a non-array value, loadTasks yields the empty task list; being
a total function of the payload, it propagates no error to the caller. -/
theorem loadTasks_corrupt (p : Payload) (h : isArrayValue p = false) :
    loadTasks p = [] := by
  match p with
  | Payload.absent => rfl
  | Payload.malformed => rfl
  | Payload.value j =>
    cases j with
    | arr xs => rw [isArrayValue] at h; cases h
    | null => rfl
    | bool b => rfl
    | num n => rfl
    | str s => rfl
    | obj fields => rfl

/-- Witness for C6 on a payload parsing to a JSON string, one parsing to an
object, an absent payload and a malformed one. -/
theorem loadTasks_corrupt_witness :
    loadTasks (Payload.value (Json.str "oops")) = [] ∧
    loadTasks Payload.absent = [] ∧
    loadTasks Payload.malformed = [] ∧
    loadTasks (Payload.value (Json.num 7)) = [] :=
  ⟨loadTasks_corrupt (Payload.value (Json.str "oops")) rfl,
   loadTasks_corrupt Payload.absent rfl,
   loadTasks_corrupt Payload.malformed rfl,
   loadTasks_corrupt (Payload.value (Json.num 7)) rfl⟩

/-- Sequences of adds keep ids pairwise distinct provided the list already
has distinct ids, none of them equal to any incoming timestamp id, and the
incoming timestamps are pairwise distinct. -/
lemma addSeq_nodup_aux :
    ∀ (ops : List (Nat × String × String)) (tasks : List Task),
      ((tasks.map Task.id).Nodup) →
      (∀ t ∈ tasks, ∀ o ∈ ops, t.id ≠ Nat.repr o.1) →
      ((ops.map Prod.fst).Nodup) →
      ((addSeq ops tasks).map Task.id).Nodup := by
  intro ops
  induction ops with
  | nil =>
    intro tasks h1 _ _
    exact h1
  | cons o os ih =>
    intro tasks h1 h2 h3
    rw [List.map_cons, List.nodup_cons] at h3
    have hstep : addSeq (o :: os) tasks =
        addSeq os ((addTask o.1 o.2.1 o.2.2 tasks).1) := rfl
    rw [hstep]
    by_cases hn : jsTrim o.2.1 = ""
    · have heq : (addTask o.1 o.2.1 o.2.2 tasks).1 = tasks := by
        rw [addTask, if_pos hn]
      rw [heq]
      exact ih tasks h1
        (fun t ht o2 ho2 => h2 t ht o2 (List.mem_cons_of_mem o ho2)) h3.2
    · have heq : (addTask o.1 o.2.1 o.2.2 tasks).1 =
          { id := Nat.repr o.1, name := jsTrim o.2.1, priority := o.2.2,
            done := false, createdAt := o.1 } :: tasks := by
        rw [addTask, if_neg hn]
      rw [heq]
      apply ih
      · rw [List.map_cons, List.nodup_cons]
        refine ⟨?_, h1⟩
        intro hmem
        obtain ⟨t, ht, hid⟩ := List.mem_map.mp hmem
        exact h2 t ht o (List.mem_cons_self o os) hid
      · intro t ht o2 ho2
        rcases List.mem_cons.mp ht with rfl | ht2
        · intro he
          have hfst := repr_injective he
          exact h3.1 (hfst ▸ List.mem_map_of_mem Prod.fst ho2)
        · exact h2 t ht2 o2 (List.mem_cons_of_mem o ho2)
      · exact h3.2

/-- Counterexample to C2 as stated: two successful adds issued at the same
Date.now() millisecond (here 5) both get id "5", so the store ends with a
duplicate id. -/
theorem addSeq_duplicate_ids :
    ¬ (((addSeq [(5, "a", "Low"), (5, "b", "Low")] []).map Task.id).Nodup) := by
  decide

/-- Claim C2 amended: for every sequence of add operations on the store whose
creation timestamps (the Date.now() values) are pairwise distinct, all
resulting tasks have pairwise distinct ids, across the lifetime of a store
that starts empty. -/
theorem addSeq_distinct_ids (ops : List (Nat × String × String))
    (h : (ops.map Prod.fst).Nodup) :
    ((addSeq ops []).map Task.id).Nodup := by
  apply addSeq_nodup_aux ops []
  · exact List.nodup_nil
  · intro t ht
    cases ht
  · exact h

/-- Witness for the amended C2 on two adds with distinct timestamps. -/
theorem addSeq_distinct_ids_witness :
    ((([(1, "a", "Low"), (2, "b", "High")] :
        List (Nat × String × String)).map Prod.fst).Nodup) ∧
    ((addSeq [(1, "a", "Low"), (2, "b", "High")] []).map Task.id).Nodup :=
  ⟨by decide, addSeq_distinct_ids [(1, "a", "Low"), (2, "b", "High")] (by decide)⟩

/-- Each store command keeps every priority inside the UI enumeration. -/
lemma applyOp_priority {tasks : List Task} {op : StoreOp}
    (h0 : ∀ t ∈ tasks, t.priority ∈ uiPriorities) (h1 : opPriorityOk op) :
    ∀ t ∈ applyOp tasks op, t.priority ∈ uiPriorities := by
  cases op with
  | add now nm priority =>
    intro t ht
    rw [applyOp] at ht
    by_cases hn : jsTrim nm = ""
    · rw [addTask, if_pos hn] at ht
      exact h0 t ht
    · rw [addTask, if_neg hn] at ht
      rcases List.mem_cons.mp ht with rfl | ht2
      · exact h1
      · exact h0 t ht2
  | toggle i =>
    intro t ht
    rw [applyOp, toggleDone] at ht
    obtain ⟨u, hu, hut⟩ := List.mem_map.mp ht
    have hp : t.priority = u.priority := by
      rw [← hut]
      by_cases hb : (u.id == i) = true
      · simp [hb]
      · simp [hb]
    rw [hp]
    exact h0 u hu
  | del i =>
    intro t ht
    rw [applyOp, deleteTask] at ht
    exact h0 t (List.mem_filter.mp ht).1

/-- Running any command sequence keeps every priority inside the UI
enumeration. -/
lemma runOps_priority :
    ∀ (ops : List StoreOp) (tasks : List Task),
      (∀ t ∈ tasks, t.priority ∈ uiPriorities) →
      (∀ o ∈ ops, opPriorityOk o) →
      ∀ t ∈ runOps tasks ops, t.priority ∈ uiPriorities := by
  intro ops
  induction ops with
  | nil =>
    intro tasks h0 _
    exact h0
  | cons o os ih =>
    intro tasks h0 h1
    have hstep : runOps tasks (o :: os) = runOps (applyOp tasks o) os := rfl
    rw [hstep]
    exact ih (applyOp tasks o)
      (applyOp_priority h0 (h1 o (List.mem_cons_self o os)))
      (fun o2 ho2 => h1 o2 (List.mem_cons_of_mem o ho2))

/-- Claim C8: through any sequence of add, toggle and delete commands whose
adds use the UI-selectable priorities, starting from any list satisfying the
invariant (in particular a freshly loaded one), every task held in the store
has priority High, Medium or Low; the payload written by save carries only
those priority strings, and loading that payload back yields only elements
with those priority strings. -/
theorem priority_invariant (tasks : List Task) (ops : List StoreOp)
    (h0 : ∀ t ∈ tasks, t.priority ∈ uiPriorities)
    (h1 : ∀ o ∈ ops, opPriorityOk o) :
    (∀ t ∈ runOps tasks ops, t.priority ∈ uiPriorities) ∧
    (∀ j ∈ jsonElems (savePayload (runOps tasks ops)),
      ∃ p ∈ uiPriorities, lookupField (jsonFields j) "priority" = some (Json.str p)) ∧
    (∀ j ∈ loadTasks (Payload.value (savePayload (runOps tasks ops))),
      ∃ p ∈ uiPriorities, lookupField (jsonFields j) "priority" = some (Json.str p)) := by
  have hmain := runOps_priority ops tasks h0 h1
  have hsave : ∀ j ∈ (runOps tasks ops).map taskToJson,
      ∃ p ∈ uiPriorities, lookupField (jsonFields j) "priority" = some (Json.str p) := by
    intro j hj
    obtain ⟨t, ht, rfl⟩ := List.mem_map.mp hj
    exact ⟨t.priority, hmain t ht, rfl⟩
  exact ⟨hmain, hsave, hsave⟩

/-- Witness for C8 on an add, a toggle and a delete starting from the empty
store. -/
theorem priority_invariant_witness :
    ({ id := "1", name := "a", priority := "High", done := true,
       createdAt := 1 } : Task).priority ∈ uiPriorities :=
  (priority_invariant [] [StoreOp.add 1 "a" "High", StoreOp.toggle "1", StoreOp.del "7"]
    (by intro t ht; cases ht)
    (by simp [opPriorityOk, uiPriorities])).1
    { id := "1", name := "a", priority := "High", done := true, createdAt := 1 }
    (by decide)

/-- Clearing a pending set whose every element is the one the ref names
empties it. -/
lemma clearTimer_eq_nil {p : List Nat} {r : Option Nat}
    (h : ∀ i ∈ p, r = some i) : clearTimer p r = [] := by
  cases r with
  | none =>
    cases p with
    | nil => rfl
    | cons a as => cases h a (List.mem_cons_self a as)
  | some v =>
    rw [clearTimer, List.filter_eq_nil_iff]
    intro i hi
    have hv := h i hi
    injection hv with hv2
    simp [hv2]

/-- Every roll machine event preserves the timer invariant. -/
lemma rollInv_step {s t : RollState} (h : RollInv s) (hs : RollStep s t) :
    RollInv t := by
  obtain ⟨hi1, hi2, ht1, ht2, hc⟩ := h
  cases hs with
  | roll =>
    have hci : clearTimer s.pendingIntervals s.intervalRef = [] :=
      clearTimer_eq_nil hi2
    have hct : clearTimer s.pendingTimeouts s.timeoutRef = [] :=
      clearTimer_eq_nil ht2
    refine ⟨?_, ?_, ?_, ?_, ?_⟩
    · rw [RollState.pendingIntervals] -- hmm
      simp [startRoll, hci]
    · intro i hi
      simp only [startRoll, hci] at hi
      rw [List.mem_singleton] at hi
      subst hi
      rfl
    · simp [startRoll, hct]
    · intro i hi
      simp only [startRoll, hct] at hi
      rw [List.mem_singleton] at hi
      subst hi
      rfl
    · simp only [startRoll, hct]
      simp
      omega
  | settle i hmem =>
    have hv := ht2 i hmem
    have hfil : s.pendingTimeouts.filter (fun x => x != i) = [] := by
      rw [List.filter_eq_nil_iff]
      intro a ha
      have ha2 := ht2 a ha
      rw [hv] at ha2
      injection ha2 with ha3
      simp [ha3]
    have hci : clearTimer s.pendingIntervals s.intervalRef = [] :=
      clearTimer_eq_nil hi2
    have hlen : 0 < s.pendingTimeouts.length :=
      List.length_pos.mpr (List.ne_nil_of_mem hmem)
    refine ⟨?_, ?_, ?_, ?_, ?_⟩
    · simp [settleAt, hci]
    · intro j hj
      simp [settleAt, hci] at hj
    · simp [settleAt, hfil]
    · intro j hj
      simp [settleAt, hfil] at hj
    · simp only [settleAt, hfil]
      simp
      omega
  | unmount =>
    have hci : clearTimer s.pendingIntervals s.intervalRef = [] :=
      clearTimer_eq_nil hi2
    have hct : clearTimer s.pendingTimeouts s.timeoutRef = [] :=
      clearTimer_eq_nil ht2
    refine ⟨?_, ?_, ?_, ?_, ?_⟩
    · simp [cleanupTimers, hci]
    · intro j hj
      simp [cleanupTimers, hci] at hj
    · simp [cleanupTimers, hct]
    · intro j hj
      simp [cleanupTimers, hct] at hj
    · simp only [cleanupTimers, hct]
      simp
      omega

/-- The timer invariant holds at every reachable state. -/
lemma rollReachable_inv {s : RollState} (h : RollReachable s) : RollInv s := by
  induction h with
  | init =>
    refine ⟨?_, ?_, ?_, ?_, ?_⟩ <;> simp [initialRollState, RollInv]
  | step h1 h2 ih => exact rollInv_step ih h2

/-- Claim C9: in every reachable state of the roll machine at most one
preview interval and at most one settle timeout are pending (a new roll
clears the previous roll's timers before scheduling its own, so two rolls
never both have pending timers), and no more results have been written than
rolls started (two rolls never both write a result). -/
theorem roll_timer_exclusion (s : RollState) (h : RollReachable s) :
    s.pendingIntervals.length ≤ 1 ∧ s.pendingTimeouts.length ≤ 1 ∧
    s.settles ≤ s.rolls := by
  obtain ⟨h1, _, h3, _, h5⟩ := rollReachable_inv h
  exact ⟨h1, h3, by omega⟩

/-- Witness for C9 at the state reached by two back-to-back rolls. -/
theorem roll_timer_exclusion_witness :
    (startRoll (startRoll initialRollState)).pendingIntervals.length ≤ 1 ∧
    (startRoll (startRoll initialRollState)).pendingTimeouts.length ≤ 1 ∧
    (startRoll (startRoll initialRollState)).settles ≤
      (startRoll (startRoll initialRollState)).rolls :=
  roll_timer_exclusion (startRoll (startRoll initialRollState))
    (RollReachable.step
      (RollReachable.step RollReachable.init (RollStep.roll initialRollState))
      (RollStep.roll (startRoll initialRollState)))

end DiceTodo
